import Mathlib

/-!
Shallow embedding of the law_RAG_demo retrieval pipeline.

Text is modelled as `List Char`. Python string operations (`strip`, `split`,
`lower`, substring `in`) are translated into executable Lean functions, and
the regex substitutions and searches of the source are translated into
explicit character-level scanners.
-/

/-- Python `\s` whitespace class: space, tab, newline, carriage return,
vertical tab, form feed. -/
def pyIsSpaceB (c : Char) : Bool :=
  c == ' ' || c == '\t' || c == '\n' || c == '\r' || c == '\x0b' || c == '\x0c'

/-- Space-or-tab, the class `[ \t]` used by the trailing-whitespace regex. -/
def isWsT (c : Char) : Bool := c == ' ' || c == '\t'

/-- Python `str.strip()`: drop leading and trailing whitespace. -/
def pyStrip (s : List Char) : List Char :=
  ((s.dropWhile pyIsSpaceB).reverse.dropWhile pyIsSpaceB).reverse

/-- Whether the string has at least one non-whitespace character
(i.e. `s.strip()` is truthy in Python). -/
def hasNonWs (s : List Char) : Bool := s.any (fun c => !(pyIsSpaceB c))

/-- Python `str.lower()` (ASCII case folding, as in the source corpus). -/
def lowerStr (s : List Char) : List Char := s.map Char.toLower

/-- Python substring test `pat in s`. -/
def isSubstr (pat s : List Char) : Bool :=
  (List.range (s.length + 1)).any (fun i => (s.drop i).take pat.length == pat)

/-- Whether the first non-space-or-tab character is a newline; this is the
lookahead deciding if a `[ \t]+\n` regex occurrence starts here. -/
def lookNl (s : List Char) : Bool := (s.dropWhile isWsT).head? == some '\n'

/-- `re.sub(r"[ \t]+\n", "\n", text)` from `container_to_canonical_text`:
delete every space or tab that is followed, through spaces and tabs, by a
newline. -/
def stripWsNl : List Char → List Char
  | [] => []
  | c :: rest =>
    if isWsT c && lookNl rest then stripWsNl rest
    else c :: stripWsNl rest

/-- `re.sub(r"\n{3,}", "\n\n", text)` from `container_to_canonical_text`:
collapse every run of three or more newlines to exactly two. -/
def collapseNl : List Char → List Char
  | [] => []
  | [c] => [c]
  | [c, d] => [c, d]
  | c :: d :: e :: rest =>
    if c = '\n' ∧ d = '\n' ∧ e = '\n' then collapseNl ('\n' :: '\n' :: rest)
    else c :: collapseNl (d :: e :: rest)
termination_by l => l.length

/-- The final text post-processing of `container_to_canonical_text`
(source lines 129-130): collapse newline runs, then strip trailing
whitespace before newlines. -/
def postProcess (s : List Char) : List Char := stripWsNl (collapseNl s)

/-- Inner while-loop of the short-chunk merge (`ingestion_helper.py` lines
81-86): starting from accumulated text `acc`, keep appending the next chunk
(stripped, joined by a blank line, re-stripped) while `acc` is shorter than
`minC` and rows remain.  Returns the final accumulation and the unconsumed
rows. -/
def accRun (minC : ℕ) (acc : List Char) : List (List Char) → List Char × List (List Char)
  | [] => (acc, [])
  | t :: rest =>
    if acc.length < minC then
      accRun minC (pyStrip (acc ++ '\n' :: '\n' :: pyStrip t)) rest
    else (acc, t :: rest)

/-- Outer while-loop of the short-chunk merge (`ingestion_helper.py` lines
77-93) over one document's ordered chunk texts. -/
def mergeRows (minC : ℕ) : List (List Char) → List (List Char)
  | [] => []
  | t :: rest =>
    (accRun minC (pyStrip t) rest).1 :: mergeRows minC (accRun minC (pyStrip t) rest).2
termination_by l => l.length
decreasing_by
  have h : ∀ (acc : List Char) (l : List (List Char)), ((accRun minC acc l).2).length ≤ l.length := by
    intro acc l
    induction l generalizing acc with
    | nil => simp [accRun]
    | cons u us ih =>
      rw [accRun]
      split
      · exact Nat.le_trans (ih _) (Nat.le_succ _)
      · simp
  simp only [List.length_cons]
  exact Nat.lt_succ_of_le (h _ _)

/-- Per-document re-indexing of merged chunks (`ingestion_helper.py` line 99,
`enumerate`): pair each merged chunk with its new 0-based index. -/
def reindexChunks (chunks : List (List Char)) : List (ℕ × List Char) :=
  chunks.enum

/-- Helper for `re.split(r"\n{2,}", txt)`: accumulates the current block
(reversed) and splits at each maximal run of two or more newlines. -/
def splitBlocksAux (cur : List Char) : List Char → List (List Char)
  | [] => [cur.reverse]
  | '\n' :: '\n' :: rest =>
    cur.reverse :: splitBlocksAux [] (rest.dropWhile (fun c => c == '\n'))
  | c :: rest => splitBlocksAux (c :: cur) rest
termination_by l => l.length
decreasing_by
  · have := (List.dropWhile_sublist (l := rest) (fun c => c == '\n')).length_le
    simp only [List.length_cons]
    omega
  · simp

/-- `re.split(r"\n{2,}", txt)` from `chunk_text` (`acts_scraper.py` line 138). -/
def splitBlocks (s : List Char) : List (List Char) := splitBlocksAux [] s

/-- Helper for Python `str.split()`: split on whitespace runs, emitting no
empty words. -/
def splitWordsAux (cur : List Char) : List Char → List (List Char)
  | [] => if cur.isEmpty then [] else [cur.reverse]
  | c :: rest =>
    if pyIsSpaceB c then
      if cur.isEmpty then splitWordsAux [] rest
      else cur.reverse :: splitWordsAux [] rest
    else splitWordsAux (c :: cur) rest

/-- Python `str.split()` with no separator: whitespace-delimited words. -/
def splitWords (s : List Char) : List (List Char) := splitWordsAux [] s

/-- Modelled from the spec: `textwrap.wrap(b, width, break_long_words=False,
replace_whitespace=False)`, the library call of `chunk_text`
(`acts_scraper.py` line 151), which is not part of this repository.  Greedy
line filling over whitespace-separated words: words are packed into a line
while the joined length stays within `width`; a word longer than `width` is
placed on a line of its own, never broken. -/
def wrapGreedy (width : ℕ) (line : List Char) : List (List Char) → List (List Char)
  | [] => if line.isEmpty then [] else [line]
  | w :: ws =>
    if line.isEmpty then wrapGreedy width w ws
    else if line.length + 1 + w.length ≤ width then
      wrapGreedy width (line ++ ' ' :: w) ws
    else line :: wrapGreedy width w ws

/-- Main loop of `chunk_text` (`acts_scraper.py` lines 139-156): greedy
paragraph accumulation with the test `len(buf) + len(b) + 2 <= max_chars`,
flushing the buffer on overflow and hard-wrapping oversized blocks. -/
def chunkLoop (maxC : ℕ) : List (List Char) → List Char → List (List Char) → List (List Char)
  | out, buf, [] => if buf.isEmpty then out else out ++ [buf]
  | out, buf, b :: bs =>
    if (pyStrip b).isEmpty then chunkLoop maxC out buf bs
    else if buf.length + b.length + 2 ≤ maxC then
      chunkLoop maxC out (if buf.isEmpty then b else buf ++ '\n' :: '\n' :: b) bs
    else
      let out2 := if buf.isEmpty then out else out ++ [buf]
      if b.length ≤ maxC then chunkLoop maxC out2 b bs
      else
        chunkLoop maxC
          (out2 ++ (wrapGreedy maxC [] (splitWords b)).filter (fun w => !(pyStrip w).isEmpty))
          [] bs

/-- `chunk_text` (`acts_scraper.py` lines 136-157). -/
def chunkText (maxC : ℕ) (txt : List Char) : List (List Char) :=
  chunkLoop maxC [] [] (splitBlocks txt)

/-- Python regex `\w` word character (ASCII range, as in the corpus). -/
def isWordChar (c : Char) : Bool := c.isAlphanum || c == '_'

/-- A `\b` word boundary holds before a word character when the previous
character (if any) is not a word character. -/
def boundaryOK (prev : Option Char) : Bool :=
  match prev with
  | none => true
  | some c => !isWordChar c

/-- Match a literal character sequence, returning the remainder. -/
def dropLit : List Char → List Char → Option (List Char)
  | [], s => some s
  | _ :: _, [] => none
  | c :: cs, d :: ds => if c == d then dropLit cs ds else none

/-- Match one-or-more characters satisfying `p`, returning the remainder. -/
def takeWhile1 (p : Char → Bool) (s : List Char) : Option (List Char × List Char) :=
  let t := s.takeWhile p
  if t.isEmpty then none else some (t, s.drop t.length)

/-- The captured group `(\d+[A-Za-z\-]*)` with the remainder of the input. -/
def matchNumTokenR (s : List Char) : Option (List Char × List Char) :=
  match takeWhile1 Char.isDigit s with
  | none => none
  | some (ds, rest) =>
    let suf := rest.takeWhile (fun c => c.isAlpha || c == '-')
    some (ds ++ suf, rest.drop suf.length)

/-- The captured group `(\d+[A-Za-z\-]*)`, discarding the remainder. -/
def matchNumToken (s : List Char) : Option (List Char) :=
  match matchNumTokenR s with
  | none => none
  | some (g, _) => some g

/-- Attempt `\b[Uu]<kwTail>\s+(\d+[A-Za-z\-]*)` at the current position,
where `uc`/`lc` are the two case variants of the keyword's first letter. -/
def matchWordNumAt (uc lc : Char) (kwTail : List Char) (prev : Option Char)
    (s : List Char) : Option (List Char) :=
  if boundaryOK prev then
    match s with
    | [] => none
    | c :: rest =>
      if c == uc || c == lc then
        match dropLit kwTail rest with
        | none => none
        | some r1 =>
          match takeWhile1 pyIsSpaceB r1 with
          | none => none
          | some (_, r2) => matchNumToken r2
      else none
  else none

/-- `SECTION_PATTERNS[0]`: `\b[Ss]ection\s+(\d+[A-Za-z\-]*)`. -/
def matchSectionAt (prev : Option Char) (s : List Char) : Option (List Char) :=
  matchWordNumAt 'S' 's' ['e', 'c', 't', 'i', 'o', 'n'] prev s

/-- `SECTION_PATTERNS[3]`: `\b[Aa]rticle\s+(\d+[A-Za-z\-]*)`. -/
def matchArticleAt (prev : Option Char) (s : List Char) : Option (List Char) :=
  matchWordNumAt 'A' 'a' ['r', 't', 'i', 'c', 'l', 'e'] prev s

/-- `SECTION_PATTERNS[1]`: `\b[Ss]\.\s*(\d+[A-Za-z\-]*)`. -/
def matchSDotAt (prev : Option Char) (s : List Char) : Option (List Char) :=
  if boundaryOK prev then
    match s with
    | c :: '.' :: r1 =>
      if c == 'S' || c == 's' then matchNumToken (r1.dropWhile pyIsSpaceB)
      else none
    | _ => none
  else none

/-- `SECTION_PATTERNS[2]` with `re.MULTILINE`: `^\s*(\d+[A-Za-z\-]*)\.\s`,
anchored at the start of the text or right after a newline. -/
def matchLineNumAt (prev : Option Char) (s : List Char) : Option (List Char) :=
  if prev = none ∨ prev = some '\n' then
    match matchNumTokenR (s.dropWhile pyIsSpaceB) with
    | none => none
    | some (g, r2) =>
      match r2 with
      | '.' :: c :: _ => if pyIsSpaceB c then some g else none
      | _ => none
  else none

/-- `re.search`: try the position matcher at each position from the left,
tracking the previous character, and return the first successful capture. -/
def reSearch (m : Option Char → List Char → Option (List Char)) :
    Option Char → List Char → Option (List Char)
  | prev, [] => m prev []
  | prev, c :: rest =>
    match m prev (c :: rest) with
    | some g => some g
    | none => reSearch m (some c) rest

/-- `re.search(r"\([a-z]\)", head)`: an enumerated-list marker such as
`(a)` occurs somewhere in the string. -/
def hasLetterMarker : List Char → Bool
  | '(' :: c :: ')' :: rest =>
    if 'a' ≤ c ∧ c ≤ 'z' then true else hasLetterMarker (c :: ')' :: rest)
  | _ :: rest => hasLetterMarker rest
  | [] => false

/-- `extract_section_no` (`ingestion_helper.py` lines 50-68): try the
`Section`/`s.` patterns, then the line-leading bare number (suppressed, with
no further fallback, when a `(letter)` marker occurs in the first 120
characters), and only as a last resort the `Article` pattern. -/
def extractSectionNo (t : List Char) : Option (List Char) :=
  match reSearch matchSectionAt none t with
  | some g => some g
  | none =>
    match reSearch matchSDotAt none t with
    | some g => some g
    | none =>
      match reSearch matchLineNumAt none t with
      | some g => if hasLetterMarker (t.take 120) then none else some g
      | none => reSearch matchArticleAt none t

/-- One corpus record as loaded by `load_jsonl` (`app.py` lines 67-80) and
passed through retrieval: a chunk id, its text, the top-level `title` field
and the `metadata` title. -/
structure Rec where
  id : List Char
  text : List Char
  title : Option (List Char)
  metaTitle : Option (List Char)
deriving DecidableEq

/-- `scores.setdefault(key, ...); scores[key]["s"] += c` from `rrf`
(`app.py` lines 112-116): add contribution `c` for item `it`, keyed by id,
keeping the first-seen payload and insertion order. -/
def addOne (acc : List (Rec × ℚ)) (it : Rec) (c : ℚ) : List (Rec × ℚ) :=
  match acc with
  | [] => [(it, c)]
  | (r, s) :: rest =>
    if r.id = it.id then (r, s + c) :: rest else (r, s) :: addOne rest it c

/-- `for rank, it in enumerate(lst): ... += 1.0 / (k_rrf + rank + 1)` from
`rrf` (`app.py` lines 112-116), starting at rank `rk`. -/
def addRanked (kr : ℕ) (acc : List (Rec × ℚ)) : List Rec → ℕ → List (Rec × ℚ)
  | [], _ => acc
  | it :: rest, rk => addRanked kr (addOne acc it (1 / ((kr : ℚ) + rk + 1))) rest (rk + 1)

/-- The accumulated score table of `rrf` after `add(dense); add(sparse)`. -/
def scoresList (dense sparse : List Rec) (kr : ℕ) : List (Rec × ℚ) :=
  addRanked kr (addRanked kr [] dense 0) sparse 0

/-- Score stored in the table for a given id (0 when absent). -/
def getS : List (Rec × ℚ) → List Char → ℚ
  | [], _ => 0
  | (r, s) :: rest, key => if r.id = key then s else getS rest key

/-- Sum of the reciprocal-rank contributions an id receives from one ranked
list whose first element has rank `rk`. -/
def contribSum (kr : ℕ) (key : List Char) : List Rec → ℕ → ℚ
  | [], _ => 0
  | it :: rest, rk =>
    (if it.id = key then 1 / ((kr : ℚ) + rk + 1) else 0) + contribSum kr key rest (rk + 1)

/-- The reciprocal-rank-fusion score of an id over the two input lists. -/
def rrfScore (dense sparse : List Rec) (kr : ℕ) (key : List Char) : ℚ :=
  contribSum kr key dense 0 + contribSum kr key sparse 0

/-- Descending order on score-carrying pairs, the key
`key=lambda x: x["s"], reverse=True` of the fused sort. -/
def descRel {α : Type} (a b : α × ℚ) : Prop := b.2 ≤ a.2

instance {α : Type} : DecidableRel (descRel (α := α)) :=
  fun a b => inferInstanceAs (Decidable (b.2 ≤ a.2))

instance {α : Type} : IsTotal (α × ℚ) descRel := ⟨fun a b => le_total b.2 a.2⟩

instance {α : Type} : IsTrans (α × ℚ) descRel := ⟨fun _ _ _ h1 h2 => le_trans h2 h1⟩

/-- Python `sorted(..., key=score, reverse=True)`: a stable descending sort
by score. -/
def sortDesc {α : Type} (l : List (α × ℚ)) : List (α × ℚ) :=
  l.insertionSort descRel

/-- `rrf` (`app.py` lines 110-119): reciprocal rank fusion of the dense and
sparse ranked lists, returning the top `k` items by accumulated score. -/
def rrf (dense sparse : List Rec) (k kr : ℕ) : List Rec :=
  ((sortDesc (scoresList dense sparse kr)).take k).map Prod.fst

/-- The BM25 index object: the tokenized corpus it was built from (its
scoring internals belong to the external `rank_bm25` library). -/
def Bm25 : Type := List (List (List Char))

/-- The pool-membership test of `build_bm25` (`app.py` line 83):
`not title_filter or title_filter.lower() in (r["title"] or "").lower()`. -/
def matchesFilter (tf : Option (List Char)) (r : Rec) : Bool :=
  match tf with
  | none => true
  | some t => t.isEmpty || isSubstr (lowerStr t) (lowerStr (r.title.getD []))

/-- `build_bm25` (`app.py` lines 82-88): filter the records by a
case-insensitive title substring, returning `(None, [])` when the filtered
pool is empty. -/
def buildBm25 (records : List Rec) (tf : Option (List Char)) :
    Option Bm25 × List Rec :=
  if (records.filter (matchesFilter tf)).isEmpty then (none, [])
  else (some ((records.filter (matchesFilter tf)).map (fun r => splitWords r.text)),
    records.filter (matchesFilter tf))

/-- `bm25_topk` (`app.py` lines 103-108): empty pool or missing index give
an empty result; otherwise indices are ranked by the library scores
(modelled by the supplied scoring function `gs`) descending and the top `k`
pool entries are returned. -/
def bm25Topk (gs : Bm25 → List (List Char) → List ℚ) (bm : Option Bm25)
    (pool : List Rec) (q : List Char) (k : ℕ) : List Rec :=
  if pool.isEmpty then []
  else
    match bm with
    | none => []
    | some b =>
      let scores := gs b (splitWords q)
      let idx :=
        ((sortDesc ((List.range scores.length).map (fun i => (i, scores.getD i 0)))).map
            Prod.fst).take k
      idx.filterMap (fun i => pool.get? i)

/-- `expand_query` (`app.py` lines 133-139). -/
def expandQuery (q : List Char) : List Char :=
  let q2 :=
    if isSubstr ((r"근로자").toList) q || isSubstr ((r"노동자").toList) q then
      q ++ (r" employee worker").toList
    else q
  if (isSubstr ((r"노동").toList) q && isSubstr ((r"권리").toList) q) ||
      (isSubstr ((r"labour").toList) q && isSubstr ((r"rights").toList) q) then
    q2 ++ (r" labour rights employment").toList
  else q2

/-- The fixed well-known act names of `need_clarify` (`app.py` lines
143-144). -/
def hints : List (List Char) :=
  [(r"Canada Labour Code").toList, (r"Canada Elections Act").toList,
    (r"Competition Act").toList, (r"Access to Information Act").toList,
    (r"Contraventions Act").toList,
    (r"Canada Emergency Response Benefit Act").toList]

/-- `[h for h in hints if h.lower() in user_q.lower()]` (`app.py` line 145). -/
def mentionedActs (q : List Char) : List (List Char) :=
  hints.filter (fun h => isSubstr (lowerStr h) (lowerStr q))

/-- `(c.get("meta", {}).get("title","") or c.get("title",""))` (`app.py`
line 147): the chunk's effective document title. -/
def effTitle (c : Rec) : List Char :=
  let a := (c.metaTitle).getD []
  if a.isEmpty then (c.title).getD [] else a

/-- The named-act clarification message of `need_clarify` (`app.py` line
150), with the mentioned act spliced in twice. -/
def actClarifyMsg (act : List Char) : List Char :=
  (r"Your question mentions ").toList ++ act ++
    (r", but the retrieved context is from other acts. Do you want me to restrict results to ").toList ++
    [Char.ofNat 39] ++ act ++ [Char.ofNat 39, '?']

/-- The topical fan-out clarification message (`app.py` line 154). -/
def fanoutMsg : List Char :=
  (r"Multiple candidate acts match your query. Would you like to choose one (e.g., Canada Labour Code, Competition Act)?").toList

/-- The fan-out trigger of `need_clarify` (`app.py` lines 152-154): three or
more distinct non-empty effective titles among the context chunks. -/
def fanoutCheck (ctx : List Rec) : Option (List Char) :=
  let titles := (ctx.map effTitle).dedup
  if 3 ≤ (titles.filter (fun t => !t.isEmpty)).length then some fanoutMsg
  else none

/-- `need_clarify` (`app.py` lines 141-155). -/
def needClarify (q : List Char) (ctx : List Rec) : Option (List Char) :=
  match mentionedActs q with
  | [] => fanoutCheck ctx
  | m0 :: rest =>
    if ctx.any (fun c =>
        ((m0 :: rest).map lowerStr).contains (lowerStr (effTitle c))) then
      fanoutCheck ctx
    else some (actClarifyMsg m0)

/-- The de-duplicating top-`k` selection over the fused list (`app.py`
lines 200-210). -/
def dedupTake (k : ℕ) (seen : List (List Char)) (out : List Rec) :
    List Rec → List Rec
  | [] => out
  | it :: rest =>
    if seen.contains it.id then dedupTake k seen out rest
    else
      if k ≤ out.length + 1 then out ++ [it]
      else dedupTake k (it.id :: seen) (out ++ [it]) rest

/-- The failure modes of the `/ask` endpoint: HTTP 400 for an empty query,
HTTP 404 when fusion yields no results. -/
inductive AskError
  | badRequest
  | notFound
deriving DecidableEq

/-- The observable outcome of a successful `/ask` call: the answer field,
the clarification flag and message, and whether the external generation
call was made. -/
structure AskResult where
  answer : Option (List Char)
  clarifyNeeded : Bool
  clarifyMessage : Option (List Char)
  calledLLM : Bool
deriving DecidableEq

/-- The post-fusion tail of `ask` (`app.py` lines 212-251): a clarification
returns early with no answer and no generation call; otherwise the answer
comes from the generation collaborator. -/
def askRespond (q : List Char) (norm : List Rec) (llmAnswer : List Char) :
    AskResult :=
  match needClarify q norm with
  | some m => ⟨none, true, some m, false⟩
  | none => ⟨some llmAnswer, false, none, true⟩

/-- The sparse branch of `ask` (`app.py` lines 188-192). -/
def askSparse (records : List Rec) (tf : Option (List Char)) (qx : List Char)
    (ks : ℕ) (gs : Bm25 → List (List Char) → List ℚ) : List Rec :=
  bm25Topk gs (buildBm25 records tf).1 (buildBm25 records tf).2 qx ks

/-- The fused list of `ask` (`app.py` line 195): `rrf(dense, sparse,
k=k_final*2)` over the expanded query. -/
def askFused (records dense : List Rec) (tf : Option (List Char))
    (q : List Char) (ks kf : ℕ) (gs : Bm25 → List (List Char) → List ℚ) :
    List Rec :=
  rrf dense (askSparse records tf (expandQuery q) ks gs) (kf * 2) 60

/-- The `/ask` endpoint (`app.py` lines 173-251) as a function of the
request and of the external collaborators' responses: `dense` is the vector
store's reply, `gs` the BM25 scoring function, `llmAnswer` the generation
service's reply. -/
def askModel (records dense : List Rec) (tf : Option (List Char))
    (q : List Char) (ks kf : ℕ) (gs : Bm25 → List (List Char) → List ℚ)
    (llmAnswer : List Char) : Except AskError AskResult :=
  if (pyStrip q).isEmpty then .error .badRequest
  else if (askFused records dense tf q ks kf gs).isEmpty then .error .notFound
  else .ok (askRespond q
    (dedupTake kf [] [] (askFused records dense tf q ks kf gs)) llmAnswer)

/-- Sample record from the Canada Labour Code, for concrete evaluations. -/
def recCLC : Rec :=
  { id := (r"d1-0001").toList, text := (r"hours of work of an employee").toList,
    title := some ((r"Canada Labour Code").toList),
    metaTitle := some ((r"Canada Labour Code").toList) }

/-- Sample record from the Competition Act. -/
def recComp : Rec :=
  { id := (r"d2-0000").toList, text := (r"mergers and monopolies").toList,
    title := some ((r"Competition Act").toList),
    metaTitle := some ((r"Competition Act").toList) }

/-- Sample record whose title properly contains a well-known act name. -/
def recCompSuffix : Rec :=
  { id := (r"d3-0000").toList, text := (r"restraint of trade").toList,
    title := some ((r"Competition Act Chapter 2").toList),
    metaTitle := some ((r"Competition Act Chapter 2").toList) }

theorem stripWsNl_length_le (s : List Char) : (stripWsNl s).length ≤ s.length := by
  induction s with
  | nil => simp [stripWsNl]
  | cons c rest ih =>
    rw [stripWsNl]
    split
    · exact Nat.le_trans ih (Nat.le_succ _)
    · simpa using ih

theorem lookNl_cons_wsT {c : Char} (h : isWsT c = true) (rest : List Char) :
    lookNl (c :: rest) = lookNl rest := by
  simp [lookNl, List.dropWhile_cons, h]

theorem lookNl_cons_not_wsT {c : Char} (h : isWsT c = false) (rest : List Char) :
    lookNl (c :: rest) = (c == '\n') := by
  simp [lookNl, List.dropWhile_cons, h]

theorem lookNl_stripWsNl (s : List Char) : lookNl (stripWsNl s) = lookNl s := by
  induction s with
  | nil => rfl
  | cons c rest ih =>
    rw [stripWsNl]
    by_cases hw : isWsT c = true
    · by_cases hl : lookNl rest = true
      · simp only [hw, hl, Bool.and_self, if_true]
        rw [ih, lookNl_cons_wsT hw]
      · have hl' : lookNl rest = false := by simpa using hl
        simp only [hw, hl', Bool.and_false, Bool.true_and, if_neg Bool.false_ne_true]
        rw [lookNl_cons_wsT hw, lookNl_cons_wsT hw, ih]
    · have hw' : isWsT c = false := by simpa using hw
      simp only [hw', Bool.false_and, if_neg Bool.false_ne_true]
      rw [lookNl_cons_not_wsT hw', lookNl_cons_not_wsT hw']

theorem stripWsNl_idem (s : List Char) : stripWsNl (stripWsNl s) = stripWsNl s := by
  induction s with
  | nil => rfl
  | cons c rest ih =>
    rw [stripWsNl]
    by_cases hcond : (isWsT c && lookNl rest) = true
    · rw [if_pos hcond]; exact ih
    · rw [if_neg hcond]
      rw [stripWsNl]
      have : (isWsT c && lookNl (stripWsNl rest)) = false := by
        rw [lookNl_stripWsNl]; simpa using hcond
      rw [this]
      simp only [Bool.false_eq_true, if_false]
      rw [ih]

theorem collapseNl_nil : collapseNl [] = [] := by rw [collapseNl]

theorem collapseNl_one (c : Char) : collapseNl [c] = [c] := by rw [collapseNl]

theorem collapseNl_two (c d : Char) : collapseNl [c, d] = [c, d] := by rw [collapseNl]

theorem collapseNl_cons_ne {c : Char} (hc : c ≠ '\n') (r : List Char) :
    collapseNl (c :: r) = c :: collapseNl r := by
  match r with
  | [] => rw [collapseNl, collapseNl]
  | [d] => rw [collapseNl, collapseNl]
  | d :: e :: rest =>
    rw [collapseNl, if_neg (fun hh => hc hh.1)]

theorem collapseNl_nl_cons {e : Char} (he : e ≠ '\n') (rest : List Char) :
    collapseNl ('\n' :: e :: rest) = '\n' :: collapseNl (e :: rest) := by
  match rest with
  | [] => rw [collapseNl, collapseNl]
  | r0 :: rs =>
    rw [collapseNl, if_neg (fun hh => he hh.2.1)]

theorem collapseNl_nl_nl_cons {e : Char} (he : e ≠ '\n') (rest : List Char) :
    collapseNl ('\n' :: '\n' :: e :: rest) = '\n' :: '\n' :: collapseNl (e :: rest) := by
  rw [collapseNl, if_neg (fun hh => he hh.2.2)]
  rw [collapseNl_nl_cons he]

theorem collapseNl_head (s : List Char) : (collapseNl s).head? = s.head? := by
  induction s using collapseNl.induct with
  | case1 => rw [collapseNl]
  | case2 c => rw [collapseNl]
  | case3 c d => rw [collapseNl]
  | case4 c d e rest h ih =>
    rw [collapseNl, if_pos h, ih]
    simp [h.1]
  | case5 c d e rest h ih =>
    rw [collapseNl, if_neg h]
    rfl

theorem collapseNl_idem (s : List Char) :
    collapseNl (collapseNl s) = collapseNl s := by
  induction s using collapseNl.induct with
  | case1 => rw [collapseNl]; rw [collapseNl]
  | case2 c => rw [collapseNl]; rw [collapseNl]
  | case3 c d => rw [collapseNl]; rw [collapseNl]
  | case4 c d e rest h ih => rw [collapseNl, if_pos h, ih]
  | case5 c d e rest h ih =>
    rw [collapseNl, if_neg h]
    by_cases hc : c = '\n'
    · subst hc
      by_cases hd : d = '\n'
      · subst hd
        have he : e ≠ '\n' := fun hh => h ⟨rfl, rfl, hh⟩
        have hx : collapseNl ('\n' :: e :: rest) = '\n' :: e :: collapseNl rest := by
          rw [collapseNl_nl_cons he, collapseNl_cons_ne he]
        rw [hx] at ih ⊢
        rw [collapseNl_nl_cons he, collapseNl_cons_ne he] at ih
        have hrest : collapseNl (collapseNl rest) = collapseNl rest := by
          simpa using ih
        rw [collapseNl_nl_nl_cons he, collapseNl_cons_ne he, hrest]
      · have hx : (collapseNl (d :: e :: rest)).head? = some d := by
          rw [collapseNl_head]; rfl
        cases hX : collapseNl (d :: e :: rest) with
        | nil => rw [hX] at hx; simp at hx
        | cons x xs =>
          rw [hX] at hx
          have hxd : x = d := by simpa using hx
          subst hxd
          rw [collapseNl_nl_cons hd]
          rw [hX] at ih
          rw [ih]
    · rw [collapseNl_cons_ne hc, ih]

theorem lookNl_collapseNl (s : List Char) : lookNl (collapseNl s) = lookNl s := by
  induction s using collapseNl.induct with
  | case1 => rw [collapseNl]
  | case2 c => rw [collapseNl]
  | case3 c d => rw [collapseNl]
  | case4 c d e rest h ih =>
    obtain ⟨hc, hd, he⟩ := h
    subst hc; subst hd; subst he
    rw [collapseNl, if_pos ⟨rfl, rfl, rfl⟩, ih]
    rw [lookNl_cons_not_wsT (by decide), lookNl_cons_not_wsT (by decide)]
  | case5 c d e rest h ih =>
    rw [collapseNl, if_neg h]
    by_cases hw : isWsT c = true
    · rw [lookNl_cons_wsT hw, lookNl_cons_wsT hw, ih]
    · have hw2 : isWsT c = false := by simpa using hw
      rw [lookNl_cons_not_wsT hw2, lookNl_cons_not_wsT hw2]

theorem stripWsNl_collapseNl (s : List Char) :
    stripWsNl s = s → stripWsNl (collapseNl s) = collapseNl s := by
  induction s using collapseNl.induct with
  | case1 => intro _; rw [collapseNl]; rfl
  | case2 c => intro hs; rw [collapseNl]; exact hs
  | case3 c d => intro hs; rw [collapseNl]; exact hs
  | case4 c d e rest h ih =>
    intro hs
    obtain ⟨hc, hd, he⟩ := h
    subst hc; subst hd; subst he
    rw [collapseNl, if_pos ⟨rfl, rfl, rfl⟩]
    apply ih
    rw [stripWsNl] at hs
    simp only [show isWsT '\n' = false from rfl, Bool.false_and, Bool.false_eq_true,
      if_false, List.cons.injEq, true_and] at hs
    exact hs
  | case5 c d e rest h ih =>
    intro hs
    rw [collapseNl, if_neg h]
    rw [stripWsNl] at hs
    by_cases hcond : (isWsT c && lookNl (d :: e :: rest)) = true
    · rw [if_pos hcond] at hs
      have hlen := stripWsNl_length_le (d :: e :: rest)
      rw [hs] at hlen
      simp at hlen
    · have hcond2 : (isWsT c && lookNl (d :: e :: rest)) = false := by simpa using hcond
      rw [hcond2] at hs
      simp only [Bool.false_eq_true, if_false, List.cons.injEq, true_and] at hs
      rw [stripWsNl]
      have hcond3 : (isWsT c && lookNl (collapseNl (d :: e :: rest))) = false := by
        rw [lookNl_collapseNl]; exact hcond2
      rw [hcond3]
      simp only [Bool.false_eq_true, if_false]
      rw [ih hs]

/-- C6: the claim as stated is false.  On the input `"\n\n \n\n"` the
post-processing (collapse newline runs, then strip whitespace before
newlines) produces `"\n\n\n\n"`, and a second application collapses that
fresh newline run to `"\n\n"`: the post-processing is not idempotent. -/
theorem postProcess_not_idempotent :
    postProcess (postProcess ['\n', '\n', ' ', '\n', '\n']) ≠
      postProcess ['\n', '\n', ' ', '\n', '\n'] := by
  have h1 : postProcess ['\n', '\n', ' ', '\n', '\n'] = ['\n', '\n', '\n', '\n'] := by
    simp [postProcess, collapseNl, stripWsNl, lookNl, isWsT]
  have h2 : postProcess ['\n', '\n', '\n', '\n'] = ['\n', '\n'] := by
    simp [postProcess, collapseNl, stripWsNl, lookNl, isWsT]
  rw [h1, h2]
  decide

/-- C6 (amended): the final text post-processing of
`container_to_canonical_text` is idempotent from the second pass onward:
for every input string, a third application changes nothing over a second
application, so the content hash is stable from the second pass on (and on
any text with no space or tab before a newline it is stable from the first
pass, by `stripWsNl_collapseNl`). -/
theorem postProcess_stable_from_second_pass (t : List Char) :
    postProcess (postProcess (postProcess t)) = postProcess (postProcess t) := by
  have hu : stripWsNl (postProcess t) = postProcess t := stripWsNl_idem (collapseNl t)
  have h1 : postProcess (postProcess t) = collapseNl (postProcess t) :=
    stripWsNl_collapseNl _ hu
  rw [h1]
  show stripWsNl (collapseNl (collapseNl (postProcess t))) = collapseNl (postProcess t)
  rw [collapseNl_idem]
  exact stripWsNl_collapseNl _ hu

theorem accRun_snd_length (minC : ℕ) (acc : List Char) (l : List (List Char)) :
    ((accRun minC acc l).2).length ≤ l.length := by
  induction l generalizing acc with
  | nil => simp [accRun]
  | cons u us ih =>
    rw [accRun]
    split
    · exact Nat.le_trans (ih _) (Nat.le_succ _)
    · simp

theorem accRun_min (minC : ℕ) (acc : List Char) (l : List (List Char))
    (h : (accRun minC acc l).2 ≠ []) : minC ≤ ((accRun minC acc l).1).length := by
  induction l generalizing acc with
  | nil => simp [accRun] at h
  | cons u us ih =>
    rw [accRun] at h ⊢
    by_cases hc : acc.length < minC
    · rw [if_pos hc] at h ⊢
      exact ih _ h
    · rw [if_neg hc] at h ⊢
      exact Nat.le_of_not_lt hc

theorem accRun_snd_mem (minC : ℕ) (acc : List Char) (l : List (List Char))
    (t : List Char) (h : t ∈ (accRun minC acc l).2) : t ∈ l := by
  induction l generalizing acc with
  | nil => simp [accRun] at h
  | cons u us ih =>
    rw [accRun] at h
    split at h
    · exact List.mem_cons_of_mem _ (ih _ h)
    · exact h

theorem mergeRows_nil (minC : ℕ) : mergeRows minC [] = [] := by rw [mergeRows]

theorem mergeRows_cons (minC : ℕ) (t : List Char) (rest : List (List Char)) :
    mergeRows minC (t :: rest) =
      (accRun minC (pyStrip t) rest).1 ::
        mergeRows minC (accRun minC (pyStrip t) rest).2 := by
  rw [mergeRows]

theorem mergeRows_length (minC : ℕ) (rows : List (List Char)) :
    (mergeRows minC rows).length ≤ rows.length := by
  induction rows using mergeRows.induct minC with
  | case1 => rw [mergeRows_nil]
  | case2 t rest ih =>
    rw [mergeRows_cons]
    have h2 := accRun_snd_length minC (pyStrip t) rest
    simp only [List.length_cons]
    omega

theorem mergeRows_dropLast_min (minC : ℕ) (rows : List (List Char)) :
    ∀ c ∈ (mergeRows minC rows).dropLast, minC ≤ c.length := by
  induction rows using mergeRows.induct minC with
  | case1 => rw [mergeRows_nil]; intro c hc; simp at hc
  | case2 t rest ih =>
    rw [mergeRows_cons]
    intro c hc
    cases hM : mergeRows minC (accRun minC (pyStrip t) rest).2 with
    | nil => rw [hM] at hc; simp at hc
    | cons m ms =>
      rw [hM] at hc
      rw [List.dropLast_cons_of_ne_nil (by simp)] at hc
      rcases List.mem_cons.mp hc with hc1 | hc2
      · subst hc1
        have hne : (accRun minC (pyStrip t) rest).2 ≠ [] := by
          intro hnil
          rw [hnil, mergeRows_nil] at hM
          exact List.noConfusion hM
        exact accRun_min _ _ _ hne
      · exact ih c (by rw [hM]; exact hc2)

/-- C2: for every document's ordered chunk sequence and every `min_chars`,
the merge step emits chunks such that every merged chunk except possibly
the last has length at least `min_chars`; the re-assigned `chunk_index`
values form exactly the contiguous sequence `0, 1, 2, ...`; and the number
of merged chunks is at most the number of input chunks. -/
theorem mergeRows_policy (minC : ℕ) (rows : List (List Char)) :
    (∀ c ∈ (mergeRows minC rows).dropLast, minC ≤ c.length) ∧
      (mergeRows minC rows).length ≤ rows.length ∧
      (reindexChunks (mergeRows minC rows)).map Prod.fst =
        List.range (mergeRows minC rows).length :=
  ⟨mergeRows_dropLast_min minC rows, mergeRows_length minC rows,
    List.enum_map_fst _⟩

/-- Witness for C2 at a concrete document. -/
theorem mergeRows_policy_witness :
    ['a', 'b', 'c', 'd'] ∈ (mergeRows 3 [['a', 'b', 'c', 'd'], ['e']]).dropLast ∧
      3 ≤ (['a', 'b', 'c', 'd'] : List Char).length := by
  have hm : ['a', 'b', 'c', 'd'] ∈ (mergeRows 3 [['a', 'b', 'c', 'd'], ['e']]).dropLast := by
    simp [mergeRows, accRun, pyStrip, pyIsSpaceB]
  exact ⟨hm, (mergeRows_policy 3 [['a', 'b', 'c', 'd'], ['e']]).1 _ hm⟩

theorem splitWordsAux_sound (l : List Char) :
    ∀ (cur : List Char), (∀ ch ∈ cur, pyIsSpaceB ch = false) →
      ∀ w ∈ splitWordsAux cur l, w ≠ [] ∧ ∀ ch ∈ w, pyIsSpaceB ch = false := by
  induction l with
  | nil =>
    intro cur hcur w hw
    rw [splitWordsAux] at hw
    by_cases hc : cur.isEmpty = true
    · rw [if_pos hc] at hw; simp at hw
    · rw [if_neg hc] at hw
      rcases List.mem_singleton.mp hw with rfl
      refine ⟨?_, ?_⟩
      · simp only [ne_eq, List.reverse_eq_nil_iff]
        intro hnil
        rw [hnil] at hc; exact hc rfl
      · intro ch hch
        exact hcur ch (List.mem_reverse.mp hch)
  | cons c rest ih =>
    intro cur hcur w hw
    rw [splitWordsAux] at hw
    by_cases hsp : pyIsSpaceB c = true
    · rw [if_pos hsp] at hw
      by_cases hc : cur.isEmpty = true
      · rw [if_pos hc] at hw
        exact ih [] (by simp) w hw
      · rw [if_neg hc] at hw
        rcases List.mem_cons.mp hw with rfl | hw2
        · refine ⟨?_, ?_⟩
          · simp only [ne_eq, List.reverse_eq_nil_iff]
            intro hnil
            rw [hnil] at hc; exact hc rfl
          · intro ch hch
            exact hcur ch (List.mem_reverse.mp hch)
        · exact ih [] (by simp) w hw2
    · have hsp2 : pyIsSpaceB c = false := by simpa using hsp
      rw [if_neg (by simp [hsp2])] at hw
      refine ih (c :: cur) ?_ w hw
      intro ch hch
      rcases List.mem_cons.mp hch with rfl | hch2
      · exact hsp2
      · exact hcur ch hch2

theorem splitWords_sound (s : List Char) :
    ∀ w ∈ splitWords s, w ≠ [] ∧ ∀ ch ∈ w, pyIsSpaceB ch = false :=
  splitWordsAux_sound s [] (by simp)

theorem wrapGreedy_sound (width : ℕ) (ws : List (List Char)) :
    ∀ (line : List Char),
      (line.length ≤ width ∨ ∀ ch ∈ line, pyIsSpaceB ch = false) →
      (∀ w ∈ ws, ∀ ch ∈ w, pyIsSpaceB ch = false) →
      ∀ c ∈ wrapGreedy width line ws,
        c.length ≤ width ∨ ∀ ch ∈ c, pyIsSpaceB ch = false := by
  induction ws with
  | nil =>
    intro line hline _ c hc
    rw [wrapGreedy] at hc
    by_cases hl : line.isEmpty = true
    · rw [if_pos hl] at hc; simp at hc
    · rw [if_neg hl] at hc
      rcases List.mem_singleton.mp hc with rfl
      exact hline
  | cons w ws ih =>
    intro line hline hws c hc
    rw [wrapGreedy] at hc
    by_cases hl : line.isEmpty = true
    · rw [if_pos hl] at hc
      exact ih w (Or.inr (hws w (List.mem_cons_self _ _)))
        (fun v hv => hws v (List.mem_cons_of_mem _ hv)) c hc
    · rw [if_neg hl] at hc
      by_cases hfit : line.length + 1 + w.length ≤ width
      · rw [if_pos hfit] at hc
        refine ih (line ++ ' ' :: w) (Or.inl ?_)
          (fun v hv => hws v (List.mem_cons_of_mem _ hv)) c hc
        simp only [List.length_append, List.length_cons]
        omega
      · rw [if_neg hfit] at hc
        rcases List.mem_cons.mp hc with rfl | hc2
        · exact hline
        · exact ih w (Or.inr (hws w (List.mem_cons_self _ _)))
            (fun v hv => hws v (List.mem_cons_of_mem _ hv)) c hc2

theorem chunkLoop_sound (maxC : ℕ) (bs : List (List Char)) :
    ∀ (out : List (List Char)) (buf : List Char),
      (∀ c ∈ out, c.length ≤ maxC ∨ (maxC < c.length ∧ ∀ ch ∈ c, pyIsSpaceB ch = false)) →
      buf.length ≤ maxC →
      ∀ c ∈ chunkLoop maxC out buf bs,
        c.length ≤ maxC ∨ (maxC < c.length ∧ ∀ ch ∈ c, pyIsSpaceB ch = false) := by
  induction bs with
  | nil =>
    intro out buf hout hbuf c hc
    rw [chunkLoop] at hc
    by_cases hb : buf.isEmpty = true
    · rw [if_pos hb] at hc; exact hout c hc
    · rw [if_neg hb] at hc
      rcases List.mem_append.mp hc with hc1 | hc2
      · exact hout c hc1
      · rcases List.mem_singleton.mp hc2 with rfl
        exact Or.inl hbuf
  | cons b bs ih =>
    intro out buf hout hbuf c hc
    rw [chunkLoop] at hc
    by_cases hskip : (pyStrip b).isEmpty = true
    · rw [if_pos hskip] at hc
      exact ih out buf hout hbuf c hc
    · rw [if_neg hskip] at hc
      by_cases hfit : buf.length + b.length + 2 ≤ maxC
      · rw [if_pos hfit] at hc
        refine ih out _ hout ?_ c hc
        by_cases hbe : buf.isEmpty = true
        · rw [if_pos hbe]; omega
        · rw [if_neg hbe]
          simp only [List.length_append, List.length_cons]
          omega
      · rw [if_neg hfit] at hc
        have hout2 : ∀ d ∈ (if buf.isEmpty then out else out ++ [buf]),
            d.length ≤ maxC ∨ (maxC < d.length ∧ ∀ ch ∈ d, pyIsSpaceB ch = false) := by
          intro d hd
          by_cases hbe : buf.isEmpty = true
          · rw [if_pos hbe] at hd; exact hout d hd
          · rw [if_neg hbe] at hd
            rcases List.mem_append.mp hd with hd1 | hd2
            · exact hout d hd1
            · rcases List.mem_singleton.mp hd2 with rfl
              exact Or.inl hbuf
        by_cases hble : b.length ≤ maxC
        · rw [if_pos hble] at hc
          exact ih _ b hout2 hble c hc
        · rw [if_neg hble] at hc
          refine ih _ [] ?_ (by simp) c hc
          intro d hd
          rcases List.mem_append.mp hd with hd1 | hd2
          · exact hout2 d hd1
          · have hd3 : d ∈ wrapGreedy maxC [] (splitWords b) :=
              (List.mem_filter.mp hd2).1
            have hws := wrapGreedy_sound maxC (splitWords b) [] (Or.inl (by simp))
              (fun w hw => (splitWords_sound b w hw).2) d hd3
            rcases hws with hle | hnws
            · exact Or.inl hle
            · by_cases hdl : d.length ≤ maxC
              · exact Or.inl hdl
              · exact Or.inr ⟨Nat.lt_of_not_le hdl, hnws⟩

/-- C3: every chunk emitted by `chunk_text` has length at most `max_chars`,
except a chunk consisting of a single unsplittable word (no whitespace at
all) longer than `max_chars`. -/
theorem chunkText_length_bound (maxC : ℕ) (txt : List Char) :
    ∀ c ∈ chunkText maxC txt,
      c.length ≤ maxC ∨ (maxC < c.length ∧ ∀ ch ∈ c, pyIsSpaceB ch = false) :=
  chunkLoop_sound maxC (splitBlocks txt) [] [] (by intro c hc; simp at hc) (by simp)

/-- Witness for C3: on a concrete text with an oversized unsplittable word,
the bound holds for a produced chunk. -/
theorem chunkText_length_bound_witness :
    ['a', 'b', ' ', 'c', 'd'] ∈ chunkText 5 (['a', 'b', ' ', 'c', 'd']) ∧
      (['a', 'b', ' ', 'c', 'd'] : List Char).length ≤ 5 := by
  have hm : ['a', 'b', ' ', 'c', 'd'] ∈ chunkText 5 (['a', 'b', ' ', 'c', 'd']) := by
    simp [chunkText, splitBlocks, splitBlocksAux, chunkLoop, pyStrip, pyIsSpaceB]
  refine ⟨hm, ?_⟩
  rcases chunkText_length_bound 5 (['a', 'b', ' ', 'c', 'd']) _ hm with h | h
  · exact h
  · exact absurd (h.2 ' ' (by simp)) (by simp [pyIsSpaceB])

theorem any_not_dropWhile (p : Char → Bool) (s : List Char) :
    ((s.dropWhile p).any fun c => !p c) = s.any fun c => !p c := by
  induction s with
  | nil => rfl
  | cons c rest ih =>
    rw [List.dropWhile_cons]
    by_cases hp : p c = true
    · rw [if_pos hp, List.any_cons, hp]
      simpa using ih
    · rw [if_neg hp]

theorem hasNonWs_pyStrip (s : List Char) : hasNonWs (pyStrip s) = hasNonWs s := by
  unfold pyStrip hasNonWs
  rw [List.any_reverse, any_not_dropWhile, List.any_reverse, any_not_dropWhile]

theorem pyStrip_isEmpty_eq (s : List Char) :
    (pyStrip s).isEmpty = !(hasNonWs s) := by
  by_cases h : hasNonWs s = true
  · rw [h]
    have h2 : hasNonWs (pyStrip s) = true := by rw [hasNonWs_pyStrip]; exact h
    cases hs : pyStrip s with
    | nil => rw [hs] at h2; simp [hasNonWs] at h2
    | cons c rest => simp
  · have h2 : hasNonWs s = false := by simpa using h
    rw [h2]
    have h3 : ∀ x ∈ s, pyIsSpaceB x = true := by
      intro x hx
      have := (List.any_eq_false.mp h2) x hx
      simpa using this
    have h4 : pyStrip s = [] := by
      unfold pyStrip
      rw [List.reverse_eq_nil_iff, List.dropWhile_eq_nil_iff]
      intro x hx
      exact h3 x (List.dropWhile_sublist pyIsSpaceB |>.subset (List.mem_reverse.mp hx))
    rw [h4]
    rfl

theorem hasNonWs_append (a b : List Char) :
    hasNonWs (a ++ b) = (hasNonWs a || hasNonWs b) := by
  unfold hasNonWs
  rw [List.any_append]

theorem accRun_fst_hasNonWs (minC : ℕ) (l : List (List Char)) :
    ∀ (acc : List Char), hasNonWs acc = true →
      hasNonWs (accRun minC acc l).1 = true := by
  induction l with
  | nil => intro acc h; rw [accRun]; exact h
  | cons u us ih =>
    intro acc h
    rw [accRun]
    by_cases hc : acc.length < minC
    · rw [if_pos hc]
      refine ih _ ?_
      rw [hasNonWs_pyStrip, hasNonWs_append, h]
      rfl
    · rw [if_neg hc]
      exact h

theorem mergeRows_hasNonWs (minC : ℕ) (rows : List (List Char))
    (hrows : ∀ t ∈ rows, hasNonWs t = true) :
    ∀ m ∈ mergeRows minC rows, hasNonWs m = true := by
  induction rows using mergeRows.induct minC with
  | case1 => rw [mergeRows_nil]; intro m hm; simp at hm
  | case2 t rest ih =>
    rw [mergeRows_cons]
    intro m hm
    rcases List.mem_cons.mp hm with rfl | hm2
    · refine accRun_fst_hasNonWs minC rest _ ?_
      rw [hasNonWs_pyStrip]
      exact hrows t (List.mem_cons_self _ _)
    · refine ih ?_ m hm2
      intro u hu
      exact hrows u (List.mem_cons_of_mem _ (accRun_snd_mem minC (pyStrip t) rest u hu))

theorem chunkLoop_nonempty (maxC : ℕ) (bs : List (List Char)) :
    ∀ (out : List (List Char)) (buf : List Char),
      (∀ c ∈ out, hasNonWs c = true) →
      (buf = [] ∨ hasNonWs buf = true) →
      ∀ c ∈ chunkLoop maxC out buf bs, hasNonWs c = true := by
  induction bs with
  | nil =>
    intro out buf hout hbuf c hc
    rw [chunkLoop] at hc
    by_cases hb : buf.isEmpty = true
    · rw [if_pos hb] at hc; exact hout c hc
    · rw [if_neg hb] at hc
      rcases List.mem_append.mp hc with hc1 | hc2
      · exact hout c hc1
      · rcases List.mem_singleton.mp hc2 with rfl
        rcases hbuf with rfl | hb2
        · exact absurd rfl hb
        · exact hb2
  | cons b bs ih =>
    intro out buf hout hbuf c hc
    rw [chunkLoop] at hc
    by_cases hskip : (pyStrip b).isEmpty = true
    · rw [if_pos hskip] at hc
      exact ih out buf hout hbuf c hc
    · rw [if_neg hskip] at hc
      have hbnws : hasNonWs b = true := by
        have heq := pyStrip_isEmpty_eq b
        rcases hnw : hasNonWs b with _ | _
        · rw [hnw] at heq
          simp only [Bool.not_false] at heq
          exact absurd heq hskip
        · rfl
      by_cases hfit : buf.length + b.length + 2 ≤ maxC
      · rw [if_pos hfit] at hc
        refine ih out _ hout (Or.inr ?_) c hc
        by_cases hbe : buf.isEmpty = true
        · rw [if_pos hbe]; exact hbnws
        · rw [if_neg hbe, hasNonWs_append]
          rw [show hasNonWs ('\n' :: '\n' :: b) = hasNonWs b from by
            simp [hasNonWs, pyIsSpaceB], hbnws]
          simp
      · rw [if_neg hfit] at hc
        have hout2 : ∀ d ∈ (if buf.isEmpty then out else out ++ [buf]),
            hasNonWs d = true := by
          intro d hd
          by_cases hbe : buf.isEmpty = true
          · rw [if_pos hbe] at hd; exact hout d hd
          · rw [if_neg hbe] at hd
            rcases List.mem_append.mp hd with hd1 | hd2
            · exact hout d hd1
            · rcases List.mem_singleton.mp hd2 with rfl
              rcases hbuf with rfl | hb2
              · exact absurd rfl hbe
              · exact hb2
        by_cases hble : b.length ≤ maxC
        · rw [if_pos hble] at hc
          exact ih _ b hout2 (Or.inr hbnws) c hc
        · rw [if_neg hble] at hc
          refine ih _ [] ?_ (Or.inl rfl) c hc
          intro d hd
          rcases List.mem_append.mp hd with hd1 | hd2
          · exact hout2 d hd1
          · have hfilt := (List.mem_filter.mp hd2).2
            have := pyStrip_isEmpty_eq d
            rcases hnw : hasNonWs d with _ | _
            · rw [hnw] at this
              rw [this] at hfilt
              simp at hfilt
            · rfl

theorem pyStrip_isEmpty_false_iff (s : List Char) :
    (pyStrip s).isEmpty = false ↔ hasNonWs s = true := by
  rw [pyStrip_isEmpty_eq]
  cases hasNonWs s <;> simp

/-- C7 counterexample: the claim as stated is false.  For the input
document whose single source chunk text is the empty string, the merge
step emits a merged record whose text is empty (and so empty after
trimming): the non-emptiness invariant does not hold for every input. -/
theorem merge_empty_counterexample :
    mergeRows 200 [([] : List Char)] = [[]] ∧ pyStrip ([] : List Char) = [] := by
  constructor
  · rw [mergeRows_cons]
    simp [accRun, pyStrip, mergeRows_nil]
  · rfl

/-- C7 (amended): `chunk_text` never emits a whitespace-only chunk, for any
input text and bound; and the merge step preserves non-emptiness: whenever
every source chunk text of the document is non-empty after trimming (as is
the case for `chunk_text` output), every merged record is non-empty after
trimming.  A document whose chunk texts are all whitespace-only instead
yields a merged record with empty trimmed text
(`merge_empty_counterexample`). -/
theorem chunk_merge_nonempty :
    (∀ (maxC : ℕ) (txt : List Char), ∀ c ∈ chunkText maxC txt,
        (pyStrip c).isEmpty = false) ∧
      (∀ (minC : ℕ) (rows : List (List Char)),
        (∀ t ∈ rows, (pyStrip t).isEmpty = false) →
        ∀ m ∈ mergeRows minC rows, (pyStrip m).isEmpty = false) := by
  constructor
  · intro maxC txt c hc
    rw [pyStrip_isEmpty_false_iff]
    exact chunkLoop_nonempty maxC (splitBlocks txt) [] []
      (by intro d hd; simp at hd) (Or.inl rfl) c hc
  · intro minC rows hrows m hm
    rw [pyStrip_isEmpty_false_iff]
    refine mergeRows_hasNonWs minC rows ?_ m hm
    intro t ht
    rw [← pyStrip_isEmpty_false_iff]
    exact hrows t ht

/-- Witness for C7 (amended) at concrete inputs. -/
theorem chunk_merge_nonempty_witness :
    (['a'] ∈ chunkText 5 ['a'] ∧ (pyStrip ['a']).isEmpty = false) ∧
      (['a'] ∈ mergeRows 3 [['a']] ∧ (pyStrip ['a']).isEmpty = false) := by
  have hc : ['a'] ∈ chunkText 5 ['a'] := by
    simp [chunkText, splitBlocks, splitBlocksAux, chunkLoop, pyStrip, pyIsSpaceB]
  have hm : ['a'] ∈ mergeRows 3 [['a']] := by
    rw [mergeRows_cons]
    simp [accRun, pyStrip, pyIsSpaceB, mergeRows_nil]
  refine ⟨⟨hc, chunk_merge_nonempty.1 5 ['a'] _ hc⟩,
    ⟨hm, chunk_merge_nonempty.2 3 [['a']] ?_ _ hm⟩⟩
  intro t ht
  rcases List.mem_singleton.mp ht with rfl
  rfl

/-- C4 counterexample: the claim as stated is false.  The chunk text
`"1. a\nArticle 5 b"` contains an `Article 5` mention (the Article pattern
matches and captures `5`), yet `extract_section_no` returns `1`, the
line-leading bare-number fallback: the bare-number fallback takes
precedence over `Article`, not the other way round. -/
theorem extract_article_counterexample :
    reSearch matchArticleAt none
        ['1', '.', ' ', 'a', '\n', 'A', 'r', 't', 'i', 'c', 'l', 'e', ' ', '5', ' ', 'b'] =
      some ['5'] ∧
      extractSectionNo
          ['1', '.', ' ', 'a', '\n', 'A', 'r', 't', 'i', 'c', 'l', 'e', ' ', '5', ' ', 'b'] =
        some ['1'] ∧
      (some ['1'] : Option (List Char)) ≠ some ['5'] := by
  refine ⟨by decide, by decide, by decide⟩

/-- C4 (amended): `extract_section_no` performs an ordered pattern match in
which `Section N` is tried first, then `s. N`, then the line-leading bare
number — suppressed, returning none with no further fallback, when a
`(letter)` marker occurs in the first 120 characters — and only when all of
those yield nothing is `Article N` consulted.  In particular a text with a
line-leading bare number (and no `Section`/`s.` match and no suppression)
returns the bare number even when an `Article N` mention is present. -/
theorem extractSectionNo_precedence (t : List Char) :
    (∀ g, reSearch matchSectionAt none t = some g → extractSectionNo t = some g) ∧
      (reSearch matchSectionAt none t = none →
        (∀ g, reSearch matchSDotAt none t = some g → extractSectionNo t = some g) ∧
          (reSearch matchSDotAt none t = none →
            (∀ g, reSearch matchLineNumAt none t = some g →
                extractSectionNo t =
                  if hasLetterMarker (t.take 120) then none else some g) ∧
              (reSearch matchLineNumAt none t = none →
                extractSectionNo t = reSearch matchArticleAt none t))) := by
  refine ⟨?_, ?_⟩
  · intro g hg
    unfold extractSectionNo
    rw [hg]
  · intro h1
    refine ⟨?_, ?_⟩
    · intro g hg
      unfold extractSectionNo
      rw [h1, hg]
    · intro h2
      refine ⟨?_, ?_⟩
      · intro g hg
        unfold extractSectionNo
        rw [h1, h2, hg]
      · intro h3
        unfold extractSectionNo
        rw [h1, h2, h3]

/-- Witness for C4 (amended) at the concrete counterexample text. -/
theorem extractSectionNo_precedence_witness :
    extractSectionNo
        ['1', '.', ' ', 'a', '\n', 'A', 'r', 't', 'i', 'c', 'l', 'e', ' ', '5', ' ', 'b'] =
      some ['1'] := by
  have h :=
    (((extractSectionNo_precedence
        ['1', '.', ' ', 'a', '\n', 'A', 'r', 't', 'i', 'c', 'l', 'e', ' ', '5', ' ', 'b']).2
      (by decide)).2 (by decide)).1 ['1'] (by decide)
  rw [show hasLetterMarker
      ((['1', '.', ' ', 'a', '\n', 'A', 'r', 't', 'i', 'c', 'l', 'e', ' ', '5', ' ', 'b']).take
        120) = false from by decide] at h
  simpa using h

theorem getS_addOne (it : Rec) (c : ℚ) (key : List Char) (acc : List (Rec × ℚ)) :
    getS (addOne acc it c) key = getS acc key + (if it.id = key then c else 0) := by
  induction acc with
  | nil =>
    by_cases h : it.id = key <;> simp [addOne, getS, h]
  | cons p rest ih =>
    obtain ⟨r, s⟩ := p
    rw [addOne]
    by_cases hr : r.id = it.id
    · rw [if_pos hr]
      by_cases hk : r.id = key
      · rw [getS, if_pos hk, getS, if_pos hk, if_pos (hr ▸ hk)]
      · rw [getS, if_neg hk, getS, if_neg hk, if_neg (fun he => hk (hr.trans he)), add_zero]
    · rw [if_neg hr]
      by_cases hk : r.id = key
      · rw [getS, if_pos hk, getS, if_pos hk,
          if_neg (fun he => hr (hk.trans he.symm)), add_zero]
      · rw [getS, if_neg hk, getS, if_neg hk, ih]

theorem getS_addRanked (kr : ℕ) (l : List Rec) :
    ∀ (acc : List (Rec × ℚ)) (rk : ℕ) (key : List Char),
      getS (addRanked kr acc l rk) key = getS acc key + contribSum kr key l rk := by
  induction l with
  | nil =>
    intro acc rk key
    rw [addRanked, contribSum, add_zero]
  | cons it rest ih =>
    intro acc rk key
    rw [addRanked, contribSum, ih, getS_addOne]
    by_cases h : it.id = key
    · rw [if_pos h]; ring
    · rw [if_neg h]; ring

theorem getS_scoresList (dense sparse : List Rec) (kr : ℕ) (key : List Char) :
    getS (scoresList dense sparse kr) key = rrfScore dense sparse kr key := by
  unfold scoresList rrfScore
  rw [getS_addRanked, getS_addRanked]
  rw [show getS [] key = 0 from rfl]
  ring

theorem contribSum_eq_zero (kr : ℕ) (key : List Char) (l : List Rec)
    (h : key ∉ l.map Rec.id) : ∀ rk, contribSum kr key l rk = 0 := by
  induction l with
  | nil => intro rk; rw [contribSum]
  | cons it rest ih =>
    intro rk
    simp only [List.map_cons, List.mem_cons, not_or] at h
    rw [contribSum, if_neg (fun he => h.1 he.symm), ih h.2, add_zero]

theorem contribSum_of_get (kr : ℕ) (l : List Rec) :
    (l.map Rec.id).Nodup →
    ∀ (i : ℕ) (hi : i < l.length) (rk : ℕ),
      contribSum kr ((l.get ⟨i, hi⟩).id) l rk = 1 / ((kr : ℚ) + (rk + i) + 1) := by
  induction l with
  | nil => intro _ i hi; simp at hi
  | cons it rest ih =>
    intro hnd i hi rk
    simp only [List.map_cons, List.nodup_cons] at hnd
    match i with
    | 0 =>
      rw [contribSum]
      rw [show ((it :: rest).get ⟨0, hi⟩) = it from rfl]
      rw [if_pos rfl]
      rw [contribSum_eq_zero kr it.id rest hnd.1]
      push_cast
      ring
    | Nat.succ n =>
      have hn : n < rest.length := by
        have := hi
        simp only [List.length_cons] at this
        omega
      rw [contribSum]
      rw [show ((it :: rest).get ⟨n + 1, hi⟩) = rest.get ⟨n, hn⟩ from rfl]
      have hmem : (rest.get ⟨n, hn⟩).id ∈ rest.map Rec.id :=
        List.mem_map.mpr ⟨_, List.get_mem _ _ _, rfl⟩
      rw [if_neg (fun he => hnd.1 (by rw [he]; exact hmem))]
      rw [ih hnd.2 n hn (rk + 1)]
      push_cast
      ring

theorem key_mem_addOne (it : Rec) (c : ℚ) (key : List Char) (acc : List (Rec × ℚ)) :
    key ∈ (addOne acc it c).map (fun p => p.1.id) ↔
      key ∈ acc.map (fun p => p.1.id) ∨ key = it.id := by
  induction acc with
  | nil => simp [addOne, eq_comm]
  | cons p rest ih =>
    obtain ⟨r, s⟩ := p
    rw [addOne]
    by_cases hr : r.id = it.id
    · rw [if_pos hr]
      simp only [List.map_cons, List.mem_cons]
      constructor
      · intro h
        rcases h with h | h
        · exact Or.inl (Or.inl h)
        · exact Or.inl (Or.inr h)
      · intro h
        rcases h with (h | h) | h
        · exact Or.inl h
        · exact Or.inr h
        · exact Or.inl (h.trans hr.symm)
    · rw [if_neg hr]
      simp only [List.map_cons, List.mem_cons, ih]
      tauto

theorem nodup_addOne (it : Rec) (c : ℚ) (acc : List (Rec × ℚ))
    (hnd : (acc.map (fun p => p.1.id)).Nodup) :
    ((addOne acc it c).map (fun p => p.1.id)).Nodup := by
  induction acc with
  | nil => simp [addOne]
  | cons p rest ih =>
    obtain ⟨r, s⟩ := p
    simp only [List.map_cons, List.nodup_cons] at hnd
    rw [addOne]
    by_cases hr : r.id = it.id
    · rw [if_pos hr]
      simp only [List.map_cons, List.nodup_cons]
      exact hnd
    · rw [if_neg hr]
      simp only [List.map_cons, List.nodup_cons]
      refine ⟨?_, ih hnd.2⟩
      rw [key_mem_addOne]
      intro h
      rcases h with h | h
      · exact hnd.1 h
      · exact hr h

theorem key_mem_addRanked (kr : ℕ) (l : List Rec) :
    ∀ (acc : List (Rec × ℚ)) (rk : ℕ) (key : List Char),
      key ∈ (addRanked kr acc l rk).map (fun p => p.1.id) ↔
        key ∈ acc.map (fun p => p.1.id) ∨ key ∈ l.map Rec.id := by
  induction l with
  | nil =>
    intro acc rk key
    rw [addRanked]
    simp
  | cons it rest ih =>
    intro acc rk key
    rw [addRanked, ih]
    rw [key_mem_addOne]
    simp only [List.map_cons, List.mem_cons]
    tauto

theorem nodup_addRanked (kr : ℕ) (l : List Rec) :
    ∀ (acc : List (Rec × ℚ)) (rk : ℕ),
      (acc.map (fun p => p.1.id)).Nodup →
      ((addRanked kr acc l rk).map (fun p => p.1.id)).Nodup := by
  induction l with
  | nil => intro acc rk h; rw [addRanked]; exact h
  | cons it rest ih =>
    intro acc rk h
    rw [addRanked]
    exact ih _ _ (nodup_addOne it _ acc h)

theorem nodup_scoresList (dense sparse : List Rec) (kr : ℕ) :
    ((scoresList dense sparse kr).map (fun p => p.1.id)).Nodup := by
  unfold scoresList
  exact nodup_addRanked kr sparse _ 0 (nodup_addRanked kr dense [] 0 (by simp))

theorem fst_mem_addOne (it : Rec) (c : ℚ) (acc : List (Rec × ℚ)) :
    ∀ p ∈ addOne acc it c, p.1 ∈ acc.map Prod.fst ∨ p.1 = it := by
  induction acc with
  | nil =>
    intro p hp
    rw [addOne] at hp
    rcases List.mem_singleton.mp hp with rfl
    exact Or.inr rfl
  | cons q rest ih =>
    obtain ⟨r, s⟩ := q
    intro p hp
    rw [addOne] at hp
    by_cases hr : r.id = it.id
    · rw [if_pos hr] at hp
      rcases List.mem_cons.mp hp with rfl | hp2
      · exact Or.inl (by simp)
      · simp only [List.map_cons, List.mem_cons]
        left
        right
        exact List.mem_map.mpr ⟨p, hp2, rfl⟩
    · rw [if_neg hr] at hp
      rcases List.mem_cons.mp hp with rfl | hp2
      · exact Or.inl (by simp)
      · rcases ih p hp2 with h | h
        · simp only [List.map_cons, List.mem_cons]
          exact Or.inl (Or.inr h)
        · exact Or.inr h

theorem fst_mem_addRanked (kr : ℕ) (l : List Rec) :
    ∀ (acc : List (Rec × ℚ)) (rk : ℕ),
      ∀ p ∈ addRanked kr acc l rk, p.1 ∈ acc.map Prod.fst ∨ p.1 ∈ l := by
  induction l with
  | nil =>
    intro acc rk p hp
    rw [addRanked] at hp
    exact Or.inl (List.mem_map.mpr ⟨p, hp, rfl⟩)
  | cons it rest ih =>
    intro acc rk p hp
    rw [addRanked] at hp
    rcases ih _ _ p hp with h | h
    · rcases List.mem_map.mp h with ⟨q, hq, hq2⟩
      rcases fst_mem_addOne it _ acc q hq with h2 | h2
      · exact Or.inl (hq2 ▸ h2)
      · exact Or.inr (by rw [← hq2, h2]; exact List.mem_cons_self _ _)
    · exact Or.inr (List.mem_cons_of_mem _ h)

theorem fst_mem_scoresList (dense sparse : List Rec) (kr : ℕ) :
    ∀ p ∈ scoresList dense sparse kr, p.1 ∈ dense ∨ p.1 ∈ sparse := by
  unfold scoresList
  intro p hp
  rcases fst_mem_addRanked kr sparse _ 0 p hp with h | h
  · rcases List.mem_map.mp h with ⟨q, hq, hq2⟩
    rcases fst_mem_addRanked kr dense [] 0 q hq with h2 | h2
    · simp at h2
    · exact Or.inl (hq2 ▸ h2)
  · exact Or.inr h

theorem getS_mem (acc : List (Rec × ℚ))
    (hnd : (acc.map (fun p => p.1.id)).Nodup) :
    ∀ p ∈ acc, getS acc p.1.id = p.2 := by
  induction acc with
  | nil => intro p hp; simp at hp
  | cons q rest ih =>
    obtain ⟨r, s⟩ := q
    simp only [List.map_cons, List.nodup_cons] at hnd
    intro p hp
    rcases List.mem_cons.mp hp with rfl | hp2
    · rw [getS, if_pos rfl]
    · rw [getS]
      have hne : r.id ≠ p.1.id := by
        intro he
        exact hnd.1 (he ▸ List.mem_map.mpr ⟨p, hp2, rfl⟩)
      rw [if_neg hne]
      exact ih hnd.2 p hp2

theorem sortDesc_perm {α : Type} (l : List (α × ℚ)) : List.Perm (sortDesc l) l :=
  List.perm_insertionSort _ _

theorem sortDesc_pairwise {α : Type} (l : List (α × ℚ)) :
    (sortDesc l).Pairwise descRel :=
  List.sorted_insertionSort _ _

theorem score_entry (dense sparse : List Rec) (kr : ℕ) :
    ∀ p ∈ scoresList dense sparse kr, p.2 = rrfScore dense sparse kr p.1.id := by
  intro p hp
  rw [← getS_scoresList, getS_mem _ (nodup_scoresList dense sparse kr) p hp]

theorem rrf_map_id (dense sparse : List Rec) (k kr : ℕ) :
    (rrf dense sparse k kr).map Rec.id =
      ((sortDesc (scoresList dense sparse kr)).take k).map (fun p => p.1.id) := by
  unfold rrf
  rw [List.map_map]
  rfl

theorem mem_take_scores (dense sparse : List Rec) (k kr : ℕ) :
    ∀ p ∈ (sortDesc (scoresList dense sparse kr)).take k,
      p ∈ scoresList dense sparse kr := by
  intro p hp
  exact ((sortDesc_perm _).mem_iff).mp ((List.take_sublist _ _).subset hp)

/-- C1: reciprocal rank fusion.  For duplicate-free ranked input lists:
an item at 0-based rank `i` in the dense list and rank `j` in the sparse
list has accumulated score exactly `1/(k_rrf+i+1) + 1/(k_rrf+j+1)`,
strictly greater than either single contribution; an item present in only
one list gets exactly one contribution; the output has at most `k` items,
no id appears twice, it is sorted by accumulated score descending, every
output item comes from one of the input lists, and no item left out of the
output outscores an item in the output. -/
theorem rrf_fusion_spec (dense sparse : List Rec) (k kr : ℕ)
    (hd : (dense.map Rec.id).Nodup) (hs : (sparse.map Rec.id).Nodup) :
    (∀ (i j : ℕ) (hi : i < dense.length) (hj : j < sparse.length),
        (dense.get ⟨i, hi⟩).id = (sparse.get ⟨j, hj⟩).id →
        rrfScore dense sparse kr ((dense.get ⟨i, hi⟩).id) =
            1 / ((kr : ℚ) + i + 1) + 1 / ((kr : ℚ) + j + 1) ∧
          1 / ((kr : ℚ) + i + 1) < rrfScore dense sparse kr ((dense.get ⟨i, hi⟩).id) ∧
          1 / ((kr : ℚ) + j + 1) < rrfScore dense sparse kr ((dense.get ⟨i, hi⟩).id)) ∧
      (∀ (i : ℕ) (hi : i < dense.length),
        (dense.get ⟨i, hi⟩).id ∉ sparse.map Rec.id →
        rrfScore dense sparse kr ((dense.get ⟨i, hi⟩).id) = 1 / ((kr : ℚ) + i + 1)) ∧
      (∀ (j : ℕ) (hj : j < sparse.length),
        (sparse.get ⟨j, hj⟩).id ∉ dense.map Rec.id →
        rrfScore dense sparse kr ((sparse.get ⟨j, hj⟩).id) = 1 / ((kr : ℚ) + j + 1)) ∧
      (rrf dense sparse k kr).length ≤ k ∧
      ((rrf dense sparse k kr).map Rec.id).Nodup ∧
      (rrf dense sparse k kr).Pairwise
        (fun a b => rrfScore dense sparse kr b.id ≤ rrfScore dense sparse kr a.id) ∧
      (∀ r ∈ rrf dense sparse k kr, r ∈ dense ∨ r ∈ sparse) ∧
      (∀ cand : Rec, (cand ∈ dense ∨ cand ∈ sparse) →
        cand.id ∉ (rrf dense sparse k kr).map Rec.id →
        ∀ r ∈ rrf dense sparse k kr,
          rrfScore dense sparse kr cand.id ≤ rrfScore dense sparse kr r.id) := by
  refine ⟨?_, ?_, ?_, ?_, ?_, ?_, ?_, ?_⟩
  · -- both lists
    intro i j hi hj hij
    have hd1 := contribSum_of_get kr dense hd i hi 0
    have hs1 := contribSum_of_get kr sparse hs j hj 0
    simp only [Nat.cast_zero, zero_add] at hd1 hs1
    rw [← hij] at hs1
    have heq : rrfScore dense sparse kr ((dense.get ⟨i, hi⟩).id) =
        1 / ((kr : ℚ) + i + 1) + 1 / ((kr : ℚ) + j + 1) := by
      rw [rrfScore, hd1, hs1]
    refine ⟨heq, ?_, ?_⟩
    · rw [heq]
      have : (0 : ℚ) < 1 / ((kr : ℚ) + j + 1) := by positivity
      linarith
    · rw [heq]
      have : (0 : ℚ) < 1 / ((kr : ℚ) + i + 1) := by positivity
      linarith
  · -- dense only
    intro i hi hnot
    have hd1 := contribSum_of_get kr dense hd i hi 0
    simp only [Nat.cast_zero, zero_add] at hd1
    rw [rrfScore, hd1, contribSum_eq_zero kr _ sparse hnot 0, add_zero]
  · -- sparse only
    intro j hj hnot
    have hs1 := contribSum_of_get kr sparse hs j hj 0
    simp only [Nat.cast_zero, zero_add] at hs1
    rw [rrfScore, hs1, contribSum_eq_zero kr _ dense hnot 0, zero_add]
  · -- length bound
    unfold rrf
    rw [List.length_map, List.length_take]
    exact Nat.min_le_left _ _
  · -- no duplicate ids
    rw [rrf_map_id]
    have h2 : ((sortDesc (scoresList dense sparse kr)).map (fun p => p.1.id)).Nodup :=
      (((sortDesc_perm _).map _).nodup_iff).mpr (nodup_scoresList dense sparse kr)
    exact List.Nodup.sublist ((List.take_sublist _ _).map _) h2
  · -- sorted by score descending
    have hp : ((sortDesc (scoresList dense sparse kr)).take k).Pairwise descRel :=
      (sortDesc_pairwise _).sublist (List.take_sublist _ _)
    have hp2 : ((sortDesc (scoresList dense sparse kr)).take k).Pairwise
        (fun p q => rrfScore dense sparse kr q.1.id ≤ rrfScore dense sparse kr p.1.id) := by
      refine hp.imp_of_mem ?_
      intro p q hpm hqm hr
      have hps := score_entry dense sparse kr p (mem_take_scores dense sparse k kr p hpm)
      have hqs := score_entry dense sparse kr q (mem_take_scores dense sparse k kr q hqm)
      rw [← hps, ← hqs]
      exact hr
    unfold rrf
    exact List.pairwise_map.mpr hp2
  · -- provenance
    intro r hr
    unfold rrf at hr
    obtain ⟨p, hp, rfl⟩ := List.mem_map.mp hr
    exact fst_mem_scoresList dense sparse kr p (mem_take_scores dense sparse k kr p hp)
  · -- top-k exclusion
    intro cand hcand hnotin r hr
    have hkey : cand.id ∈ (scoresList dense sparse kr).map (fun p => p.1.id) := by
      unfold scoresList
      rw [key_mem_addRanked, key_mem_addRanked]
      rcases hcand with h | h
      · exact Or.inl (Or.inr (List.mem_map.mpr ⟨cand, h, rfl⟩))
      · exact Or.inr (List.mem_map.mpr ⟨cand, h, rfl⟩)
    obtain ⟨p, hp, hpid⟩ := List.mem_map.mp hkey
    have hpsrt : p ∈ sortDesc (scoresList dense sparse kr) :=
      ((sortDesc_perm _).mem_iff).mpr hp
    have hpdrop : p ∈ (sortDesc (scoresList dense sparse kr)).drop k := by
      have hsplit := List.take_append_drop k (sortDesc (scoresList dense sparse kr))
      rw [← hsplit] at hpsrt
      rcases List.mem_append.mp hpsrt with hmem | hmem
      · exfalso
        apply hnotin
        rw [← hpid, rrf_map_id]
        exact List.mem_map.mpr ⟨p, hmem, rfl⟩
      · exact hmem
    unfold rrf at hr
    obtain ⟨q, hq, rfl⟩ := List.mem_map.mp hr
    have hsorted := sortDesc_pairwise (scoresList dense sparse kr)
    rw [← List.take_append_drop k (sortDesc (scoresList dense sparse kr))] at hsorted
    have hcross : p.2 ≤ q.2 := (List.pairwise_append.mp hsorted).2.2 q hq p hpdrop
    have hps := score_entry dense sparse kr p hp
    have hqs := score_entry dense sparse kr q (mem_take_scores dense sparse k kr q hq)
    rw [hps, hpid] at hcross
    rw [hqs] at hcross
    exact hcross

/-- Witness for C1 at concrete ranked lists sharing one id. -/
theorem rrf_fusion_spec_witness :
    (([recCLC, recComp].map Rec.id).Nodup ∧
        ([recComp, recCompSuffix].map Rec.id).Nodup) ∧
      ((rrf [recCLC, recComp] [recComp, recCompSuffix] 3 60).map Rec.id).Nodup ∧
      (rrf [recCLC, recComp] [recComp, recCompSuffix] 3 60).length ≤ 3 := by
  have h := rrf_fusion_spec [recCLC, recComp] [recComp, recCompSuffix] 3 60
    (by decide) (by decide)
  exact ⟨⟨by decide, by decide⟩, h.2.2.2.2.1, h.2.2.2.1⟩

theorem needClarify_act (q : List Char) (ctx : List Rec)
    (hm : mentionedActs q ≠ [])
    (hno : ∀ c ∈ ctx, ∀ h ∈ mentionedActs q,
      lowerStr (effTitle c) ≠ lowerStr h) :
    needClarify q ctx = some (actClarifyMsg ((mentionedActs q).headD [])) := by
  unfold needClarify
  cases hmm : mentionedActs q with
  | nil => exact absurd hmm hm
  | cons m0 rest =>
    have hany : (ctx.any fun c =>
        ((m0 :: rest).map lowerStr).contains (lowerStr (effTitle c))) = false := by
      rw [List.any_eq_false]
      intro c hc
      simp only [Bool.not_eq_true]
      rcases hcontains : ((m0 :: rest).map lowerStr).contains (lowerStr (effTitle c)) with _ | _
      · rfl
      · exfalso
        have hmem : lowerStr (effTitle c) ∈ (m0 :: rest).map lowerStr := by
          simpa using hcontains
        obtain ⟨h0, hh0, heq⟩ := List.mem_map.mp hmem
        exact hno c hc h0 (by rw [hmm]; exact hh0) heq.symm
    show (if (ctx.any fun c =>
        ((m0 :: rest).map lowerStr).contains (lowerStr (effTitle c))) = true then
          fanoutCheck ctx
        else some (actClarifyMsg m0)) =
      some (actClarifyMsg ((m0 :: rest).headD []))
    rw [hany]
    simp

theorem isSubstr_here (pat a b : List Char) : isSubstr pat (a ++ (pat ++ b)) = true := by
  unfold isSubstr
  rw [List.any_eq_true]
  refine ⟨a.length, List.mem_range.mpr ?_, ?_⟩
  · simp only [List.length_append]
    omega
  · rw [List.drop_left, List.take_left]
    simp

theorem actClarifyMsg_parts (act : List Char) :
    actClarifyMsg act =
      (r"Your question mentions ").toList ++
        (act ++
          ((r", but the retrieved context is from other acts. Do you want me to restrict results to ").toList ++
            ([Char.ofNat 39] ++ (act ++ [Char.ofNat 39, '?'])))) := by
  unfold actClarifyMsg
  simp [List.append_assoc]

theorem actClarifyMsg_ne_nil (act : List Char) : actClarifyMsg act ≠ [] := by
  rw [actClarifyMsg_parts]
  simp

theorem isSubstr_actClarifyMsg (act : List Char) :
    isSubstr act (actClarifyMsg act) = true := by
  rw [actClarifyMsg_parts]
  exact isSubstr_here act _ _

/-- C5: for every query mentioning a well-known act name and every fused
result set in which no chunk's effective title equals (case-insensitively)
any mentioned act, the `/ask` endpoint returns `clarify_needed = true`
with no answer and without the generation call, and the clarification
message is non-empty and contains the first mentioned act name. -/
theorem ask_clarify_named_act (records dense : List Rec) (tf : Option (List Char))
    (q llmA : List Char) (ks kf : ℕ) (gs : Bm25 → List (List Char) → List ℚ)
    (hq : (pyStrip q).isEmpty = false)
    (hfused : askFused records dense tf q ks kf gs ≠ [])
    (hm : mentionedActs q ≠ [])
    (hno : ∀ c ∈ dedupTake kf [] [] (askFused records dense tf q ks kf gs),
      ∀ h2 ∈ mentionedActs q, lowerStr (effTitle c) ≠ lowerStr h2) :
    askModel records dense tf q ks kf gs llmA =
        Except.ok ⟨none, true, some (actClarifyMsg ((mentionedActs q).headD [])), false⟩ ∧
      actClarifyMsg ((mentionedActs q).headD []) ≠ [] ∧
      isSubstr ((mentionedActs q).headD [])
        (actClarifyMsg ((mentionedActs q).headD [])) = true := by
  refine ⟨?_, actClarifyMsg_ne_nil _, isSubstr_actClarifyMsg _⟩
  unfold askModel
  rw [hq]
  simp only [Bool.false_eq_true, if_false]
  have hf2 : (askFused records dense tf q ks kf gs).isEmpty = false := by
    cases hl : askFused records dense tf q ks kf gs with
    | nil => exact absurd hl hfused
    | cons a as => rfl
  rw [hf2]
  simp only [Bool.false_eq_true, if_false]
  unfold askRespond
  rw [needClarify_act q _ hm hno]

/-- Witness for C5 at a concrete request: the query mentions the
Competition Act, the only retrieved chunk is from the Canada Labour Code,
and the endpoint returns the clarification outcome. -/
theorem ask_clarify_named_act_witness :
    askModel [] [recCLC] none ((r"what does the Competition Act say").toList) 5 3
        (fun _ _ => []) [] =
      Except.ok ⟨none, true,
        some (actClarifyMsg
          ((mentionedActs ((r"what does the Competition Act say").toList)).headD [])),
        false⟩ :=
  (ask_clarify_named_act [] [recCLC] none ((r"what does the Competition Act say").toList)
    [] 5 3 (fun _ _ => []) (by decide) (by decide) (by decide) (by decide)).1

/-- C9: act-title matching in `need_clarify` is exact (case-insensitive)
equality, not containment: when every chunk's effective title properly
contains a mentioned act name but equals none of the mentioned act names,
no chunk counts as matching and the named-act clarification fires. -/
theorem needClarify_containment_not_match (q : List Char) (ctx : List Rec)
    (hm : mentionedActs q ≠ [])
    (hcontain : ∀ c ∈ ctx, ∃ h2 ∈ mentionedActs q,
        isSubstr (lowerStr h2) (lowerStr (effTitle c)) = true ∧
          lowerStr (effTitle c) ≠ lowerStr h2)
    (hno : ∀ c ∈ ctx, ∀ h2 ∈ mentionedActs q, lowerStr (effTitle c) ≠ lowerStr h2) :
    needClarify q ctx = some (actClarifyMsg ((mentionedActs q).headD [])) :=
  needClarify_act q ctx hm hno

/-- Witness for C9: the chunk's title is `Competition Act Chapter 2`, a
proper superstring of the mentioned `Competition Act`, and the
clarification fires anyway. -/
theorem needClarify_containment_witness :
    needClarify ((r"what does the Competition Act say").toList) [recCompSuffix] =
      some (actClarifyMsg
        ((mentionedActs ((r"what does the Competition Act say").toList)).headD [])) :=
  needClarify_containment_not_match ((r"what does the Competition Act say").toList)
    [recCompSuffix] (by decide) (by decide) (by decide)

/-- C8: a title filter matching no records makes `build_bm25` return an
empty pool (with no index) and `bm25_topk` return the empty list; and any
request whose fused list is empty fails with the not-found outcome
(HTTP 404), not a success with no results. -/
theorem empty_filter_no_results (records : List Rec) (tf : List Char)
    (hnone : ∀ r ∈ records,
      isSubstr (lowerStr tf) (lowerStr (r.title.getD [])) = false)
    (htf : tf ≠ []) :
    buildBm25 records (some tf) = (none, []) ∧
      (∀ (gs : Bm25 → List (List Char) → List ℚ) (q : List Char) (k : ℕ),
        bm25Topk gs (buildBm25 records (some tf)).1 (buildBm25 records (some tf)).2 q k =
          []) ∧
      (∀ (dense : List Rec) (q llmA : List Char) (ks kf : ℕ)
          (gs : Bm25 → List (List Char) → List ℚ),
        (pyStrip q).isEmpty = false →
        askFused records dense (some tf) q ks kf gs = [] →
        askModel records dense (some tf) q ks kf gs llmA =
          Except.error AskError.notFound) := by
  have hpool : records.filter (matchesFilter (some tf)) = [] := by
    rw [List.filter_eq_nil_iff]
    intro r hr
    have h2 : tf.isEmpty = false := by
      cases tf with
      | nil => exact absurd rfl htf
      | cons a as => rfl
    simp [matchesFilter, h2, hnone r hr]
  have h1 : buildBm25 records (some tf) = (none, []) := by
    unfold buildBm25
    rw [hpool]
    rfl
  refine ⟨h1, ?_, ?_⟩
  · intro gs q k
    rw [h1]
    rfl
  · intro dense q llmA ks kf gs hq hfe
    unfold askModel
    rw [hq]
    simp only [Bool.false_eq_true, if_false]
    rw [hfe]
    rfl

/-- Witness for C8 at a concrete corpus and filter. -/
theorem empty_filter_no_results_witness :
    buildBm25 [recCLC] (some ((r"zzz").toList)) = (none, []) ∧
      askModel [recCLC] [] (some ((r"zzz").toList)) ['h', 'i'] 1 1 (fun _ _ => []) [] =
        Except.error AskError.notFound := by
  have h := empty_filter_no_results [recCLC] ((r"zzz").toList) (by decide) (by decide)
  exact ⟨h.1, h.2.2 [] ['h', 'i'] [] 1 1 (fun _ _ => []) (by decide) (by decide)⟩

/-- C10: a query that is empty or all whitespace makes the `/ask` endpoint
fail with the client-error outcome (HTTP 400), whatever the corpus, the
collaborators' replies and the parameters are — so no expansion, lookup,
fusion or generation result can influence the outcome. -/
theorem ask_empty_query (records dense : List Rec) (tf : Option (List Char))
    (q llmA : List Char) (ks kf : ℕ) (gs : Bm25 → List (List Char) → List ℚ)
    (hq : (pyStrip q).isEmpty = true) :
    askModel records dense tf q ks kf gs llmA = Except.error AskError.badRequest := by
  unfold askModel
  rw [hq]
  simp

/-- Witness for C10 at a concrete whitespace-only query. -/
theorem ask_empty_query_witness :
    askModel [recCLC] [recComp] none [' ', '\t'] 2 1 (fun _ _ => []) [] =
      Except.error AskError.badRequest :=
  ask_empty_query [recCLC] [recComp] none [' ', '\t'] [] 2 1 (fun _ _ => []) (by decide)
